import Mathlib

/-!
Verification of the HyperLogLog driver scripts (Python) against their
specification.  The Python sources are shallowly embedded: Python integers
become `Int`/`Nat`, strings become `List Char`, functions that can raise
become `Except`/`Option`, and the external Java estimator (absent from the
repository) is modelled from the specification where a claim requires it.
-/

namespace HLL

/-! ## Definitions -/

/-- Embedding of `to_signed_32` from `hll_experiment.py`:
`value &= 0xFFFFFFFF; return value - 0x100000000 if value & 0x80000000 else value`.
Python's `v & 0xFFFFFFFF` on an arbitrary integer is reduction mod `2^32`, and
the truthiness of `v & 0x80000000` on the masked value is bit 31. -/
def to_signed_32 (value : ℤ) : ℤ :=
  let masked : ℕ := (value % 2 ^ 32).toNat
  if masked.testBit 31 then (masked : ℤ) - 2 ^ 32 else (masked : ℤ)

/-- Embedding of `int32` from `estimation_error_table.py`:
`value &= UINT32_MASK; if value & 0x80000000: return value - (1 << 32); return value`. -/
def int32 (value : ℤ) : ℤ :=
  let masked : ℕ := (value % 2 ^ 32).toNat
  if masked.testBit 31 then (masked : ℤ) - 2 ^ 32 else (masked : ℤ)

/-- Whitespace in the sense of Python's `str.strip` (ASCII subset). -/
def pyIsSpace (c : Char) : Bool :=
  c == ' ' || c == '\t' || c == '\n' || c == '\r' || c == '\x0b' || c == '\x0c'

/-- Embedding of Python `str.strip()`: drop whitespace from both ends. -/
def stripChars (l : List Char) : List Char :=
  ((l.dropWhile pyIsSpace).reverse.dropWhile pyIsSpace).reverse

/-- Split a character list at every occurrence of `c`; the embedding of
line/token splitting (`str.splitlines` is modelled as splitting on `'\n'`,
`str.split(' ')` as splitting on `' '`). -/
def splitOnChar (c : Char) : List Char → List (List Char)
  | [] => [[]]
  | x :: xs =>
    let r := splitOnChar c xs
    if x == c then [] :: r
    else
      match r with
      | [] => [[x]]
      | y :: ys => (x :: y) :: ys

/-- Embedding of Python `line.split(',', 1)`: split at the first occurrence
of `c`, or `none` when `c` does not occur (in which case the Python
two-variable unpacking raises `ValueError`). -/
def splitFirst (c : Char) : List Char → Option (List Char × List Char)
  | [] => none
  | x :: xs =>
    if x == c then some ([], xs)
    else
      match splitFirst c xs with
      | none => none
      | some (a, b) => some (x :: a, b)

/-- Embedding of Python `str.startswith`. -/
def startsWithChars : List Char → List Char → Bool
  | [], _ => true
  | _ :: _, [] => false
  | p :: ps, c :: cs => p == c && startsWithChars ps cs

/-- The characters of the header marker `'rho'`. -/
def rhoHeaderChars : List Char := ['r', 'h', 'o']

/-- The characters of the label `'undefined'`. -/
def undefinedChars : List Char := ['u', 'n', 'd', 'e', 'f', 'i', 'n', 'e', 'd']

/-- Numeric value of a list of decimal digit characters. -/
def digitsToNat (l : List Char) : ℕ :=
  l.foldl (fun acc c => 10 * acc + (c.toNat - 48)) 0

/-- Embedding of Python `str.isdigit()` (ASCII digits): nonempty and all digits. -/
def pyIsdigitStr (l : List Char) : Bool :=
  !l.isEmpty && l.all Char.isDigit

/-- Integer parsing on an already-stripped character list: an optional
single sign followed by a nonempty run of digits. -/
def parseIntCore : List Char → Option ℤ
  | [] => none
  | c :: rest =>
    if c == '-' then
      if !rest.isEmpty && rest.all Char.isDigit then some (-(digitsToNat rest : ℤ)) else none
    else if c == '+' then
      if !rest.isEmpty && rest.all Char.isDigit then some ((digitsToNat rest : ℤ)) else none
    else if (c :: rest).all Char.isDigit then some ((digitsToNat (c :: rest) : ℤ)) else none

/-- Embedding of Python `int(s)` on a decimal string: surrounding whitespace
is ignored, an optional single sign is allowed, and the remainder must be a
nonempty run of digits; anything else raises `ValueError` (here: `none`). -/
def parseInt (l : List Char) : Option ℤ :=
  parseIntCore (stripChars l)

/-- Body of the `parse_distribution` loop in `experiments.py` for one line:
`label, count_str = line.split(',', 1); distribution.append((label, int(count_str)))`,
with `ValueError` (either from unpacking or from `int`) as the error case. -/
def parseLine (line : List Char) : Except (List Char) (List Char × ℤ) :=
  match splitFirst ',' line with
  | none => Except.error line
  | some (label, countStr) =>
    match parseInt countStr with
    | none => Except.error line
    | some k => Except.ok (label, k)

/-- The `for line in lines` loop of `parse_distribution`: header lines
starting with `'rho'` are skipped, other lines are parsed in order, and the
first bad line aborts with `ValueError`. -/
def parseLoop : List (List Char) → Except (List Char) (List (List Char × ℤ))
  | [] => Except.ok []
  | l :: ls =>
    if startsWithChars rhoHeaderChars l then parseLoop ls
    else
      match parseLine l with
      | Except.error e => Except.error e
      | Except.ok p =>
        match parseLoop ls with
        | Except.error e => Except.error e
        | Except.ok ps => Except.ok (p :: ps)

/-- Embedding of `lines = [line.strip() for line in output.splitlines() if line.strip()]`. -/
def cleanLines (output : List Char) : List (List Char) :=
  ((splitOnChar '\n' output).map stripChars).filter (fun l => !l.isEmpty)

/-- Embedding of `parse_distribution` from `experiments.py`. -/
def parse_distribution (output : List Char) : Except (List Char) (List (List Char × ℤ)) :=
  parseLoop (cleanLines output)

/-- The non-blank stripped lines that are not skipped as headers: exactly the
lines from which `parse_distribution` produces pairs. -/
def dataLines (output : List Char) : List (List Char) :=
  (cleanLines output).filter (fun l => !startsWithChars rhoHeaderChars l)

/-- Decimal rendering of a natural number, the embedding of Python `str(n)`
for `n ≥ 0`. -/
def natChars (n : ℕ) : List Char :=
  if n < 10 then [Nat.digitChar n]
  else natChars (n / 10) ++ [Nat.digitChar (n % 10)]
termination_by n
decreasing_by omega

/-- Embedding of `make_input` from `experiments.py`:
`nums = " ".join(map(str, range(1, n + 1))); return f"{n}\n{nums}\n"`. -/
def make_input (n : ℕ) : List Char :=
  natChars n ++ '\n' :: (List.intercalate [' '] ((List.range' 1 n).map natChars) ++ ['\n'])

/-- Modelled from the spec: the 1-based position of the lowest set bit of a
nonzero number (`rho1 0 = 0` is unused junk); §4.2 of the specification. -/
def rho1 (n : ℕ) : ℕ :=
  if n = 0 then 0
  else if n % 2 = 1 then 1
  else rho1 (n / 2) + 1
termination_by n
decreasing_by omega

/-- Modelled from the spec: remainder-only rank classification used by the
distribution collector (§4.5): drop the low `b` bucket bits, return `none`
(the sentinel "undefined") for an all-zero remainder, otherwise the 1-based
position of the lowest set bit. -/
def rankLabel (b : ℕ) (d : ℕ) : Option ℕ :=
  let rem := d >>> b
  if rem = 0 then none else some (rho1 rem)

/-- Modelled from the spec: the rank label of every input element, in input
order; the digest function is a parameter since the concrete hash is not
observable (§9, open question). -/
def rhoLabels (digest : ℕ → ℕ) (b : ℕ) (values : List ℕ) : List (Option ℕ) :=
  values.map fun v => rankLabel b (digest v)

/-- Modelled from the spec: the data lines of the `rho-dist` output (§6): one
`label,count` line per distinct numeric rank, sorted ascending, followed by
an `undefined,count` line when some remainder was all zero. -/
def rhoDistLines (digest : ℕ → ℕ) (b : ℕ) (values : List ℕ) : List (List Char) :=
  let labels := rhoLabels digest b values
  let ranks : List ℕ := ((labels.filterMap id).dedup.mergeSort Nat.ble)
  ranks.map (fun r => natChars r ++ ',' :: natChars (labels.count (some r))) ++
    (if none ∈ labels then [undefinedChars ++ ',' :: natChars (labels.count none)] else [])

/-- Modelled from the spec: the full `rho-dist` stdout: a header line
beginning with `rho`, the data lines, and a trailing newline. -/
def rhoDistOutput (digest : ℕ → ℕ) (b : ℕ) (values : List ℕ) : List Char :=
  List.intercalate ['\n'] (rhoHeaderChars :: rhoDistLines digest b values) ++ ['\n']

/-- The `(label, count)` pairs that parsing the `rho-dist` output should
yield: one pair per distinct numeric rank (ascending) and one `undefined`
pair when present. -/
def rhoDistPairs (digest : ℕ → ℕ) (b : ℕ) (values : List ℕ) : List (List Char × ℤ) :=
  let labels := rhoLabels digest b values
  let ranks : List ℕ := ((labels.filterMap id).dedup.mergeSort Nat.ble)
  ranks.map (fun r => (natChars r, (labels.count (some r) : ℤ))) ++
    (if none ∈ labels then [(undefinedChars, (labels.count none : ℤ))] else [])

/-- The numeric entries collected by the `rho-dist` driver loop in
`experiments.py`: labels passing `isdigit`, converted with `int`, in input
order. -/
def numericOf (dist : List (List Char × ℤ)) : List (ℕ × ℤ) :=
  (dist.filter (fun p => pyIsdigitStr p.1)).map (fun p => (digitsToNat p.1, p.2))

/-- The `undefined_count` cell of the driver loop: the count of the last
`undefined`-labelled entry, if any (later assignments overwrite earlier ones). -/
def undefOf : List (List Char × ℤ) → Option ℤ
  | [] => none
  | p :: ps =>
    (undefOf ps).or
      (if !pyIsdigitStr p.1 && p.1 == undefinedChars then some p.2 else none)

/-- Embedding of the accumulation loop of the `rho-dist` driver
(`experiments.py`, `__main__`): `numeric_entries` grows on `isdigit` labels,
`undefined_count` is overwritten on `'undefined'` labels, all else ignored. -/
def collectEntries (dist : List (List Char × ℤ)) : List (ℕ × ℤ) × Option ℤ :=
  dist.foldl
    (fun acc p =>
      if pyIsdigitStr p.1 then (acc.1 ++ [(digitsToNat p.1, p.2)], acc.2)
      else if p.1 == undefinedChars then (acc.1, some p.2)
      else acc)
    ([], none)

/-- The rows printed and written to `results.csv` by the `rho-dist` driver:
numeric entries sorted by their label (`numeric_entries.sort(key=item[0])`,
a stable sort), then the `undefined` row when `undefined_count` is set.
A row label of `none` stands for `'undefined'`. -/
def driverRows (dist : List (List Char × ℤ)) : List (Option ℕ × ℤ) :=
  let collected := collectEntries dist
  (collected.1.mergeSort (fun a b => Nat.ble a.1 b.1)).map (fun q => (some q.1, q.2)) ++
    (match collected.2 with
     | some c => [(none, c)]
     | none => [])

/-- Modelled from the spec: the bias-correction constant `alpha_m` (§4.3 of
the specification, closed forms for 16/32/64). -/
noncomputable def alphaM (m : ℕ) : ℝ :=
  if m = 16 then 0.673
  else if m = 32 then 0.697
  else if m = 64 then 0.709
  else 0.7213 / (1 + 1.079 / (m : ℝ))

/-- Modelled from the spec: the raw harmonic-mean estimate
`E = alpha_m * m^2 / Σ 2^(-registers[i])` (§4.4). -/
noncomputable def rawEstimate (regs : List ℕ) : ℝ :=
  alphaM regs.length * (regs.length : ℝ) ^ 2 /
    (regs.map (fun r => ((2 : ℝ) ^ r)⁻¹)).sum

open Classical in
/-- Modelled from the spec: `estimate` with range-dependent bias correction
(§4.4): linear counting when `E ≤ 2.5 m` and some register is zero, raw `E`
in the intermediate range, large-range correction above `2^32/30`. -/
noncomputable def estimate (regs : List ℕ) : ℝ :=
  let m : ℕ := regs.length
  let E : ℝ := rawEstimate regs
  let V : ℕ := regs.count 0
  if E ≤ 2.5 * m ∧ V ≠ 0 then (m : ℝ) * Real.log ((m : ℝ) / (V : ℝ))
  else if E ≤ 2 ^ 32 / 30 then E
  else (-(2 : ℝ) ^ 32) * Real.log (1 - E / 2 ^ 32)

/-- The acceptance-band width `sigma = 1.04 / sqrt(m)` from
`estimation_error_table.py`. -/
noncomputable def sigmaOf (m : ℕ) : ℝ := 1.04 / Real.sqrt m

/-- The `within_sigma` test of `run_experiments`:
`target * (1.0 - sigma) <= estimate <= target * (1.0 + sigma)`. -/
def withinSigma (n m : ℕ) (e : ℝ) : Prop :=
  (n : ℝ) * (1 - sigmaOf m) ≤ e ∧ e ≤ (n : ℝ) * (1 + sigmaOf m)

/-- The `within_two_sigma` test of `run_experiments`. -/
def withinTwoSigma (n m : ℕ) (e : ℝ) : Prop :=
  (n : ℝ) * (1 - 2 * sigmaOf m) ≤ e ∧ e ≤ (n : ℝ) * (1 + 2 * sigmaOf m)

open Classical in
/-- Number of estimates of a run that pass the `within_sigma` test: the
`counts[0]` accumulator of `run_experiments`. -/
noncomputable def sigmaHits (n m : ℕ) (es : List ℝ) : ℕ :=
  es.countP fun e => decide (withinSigma n m e)

open Classical in
/-- Number of estimates of a run that pass the `within_two_sigma` test: the
`counts[1]` accumulator of `run_experiments`. -/
noncomputable def twoSigmaHits (n m : ℕ) (es : List ℝ) : ℕ :=
  es.countP fun e => decide (withinTwoSigma n m e)

/-- Embedding of `input_generator` from `input.py`.  The call
`rng.choice(1 << 32, size=n, replace=False)` is abstracted by the `choice`
oracle (seed, population, size); its numpy contract — `size` pairwise
distinct values below the population, when `size` fits — is a hypothesis of
the theorems.  `astype(np.uint32)` is the final `% 2^32` wrap. -/
def input_generator (choice : ℕ → ℕ → ℕ → List ℕ) (n : ℤ) (seed : ℕ) :
    Except (List Char) (List ℕ) :=
  if n < 0 then Except.error ['n', '<', '0']
  else if n > 2 ^ 32 then Except.error ['n', '>', '3', '2']
  else if n = 0 then Except.ok []
  else Except.ok ((choice seed (2 ^ 32) n.toNat).map (fun x => x % 2 ^ 32))

/-- Embedding of `generate_inputs` from `estimation_error_table.py`: retry
`input_generator` with increasing cursors until the sample avoids `0`;
`gen` abstracts `lambda cursor: input_generator(n, cursor)` and `fuel`
bounds the unbounded `while True` loop (`none` = still looping). -/
def generate_inputs (gen : ℕ → List ℕ) : ℕ → ℕ → Option (List ℕ × ℕ)
  | 0, _ => none
  | fuel + 1, cursor =>
    let values := gen cursor
    if 0 ∈ values then generate_inputs gen fuel (cursor + 1)
    else some (values, cursor + 1)

/-! ## Helper lemmas -/

lemma testBit31_iff {w : ℕ} (hw : w < 2 ^ 32) : w.testBit 31 = true ↔ 2 ^ 31 ≤ w := by
  rw [Nat.testBit_to_div_mod]
  constructor
  · intro h
    simp only [decide_eq_true_eq] at h
    omega
  · intro h
    simp only [decide_eq_true_eq]
    omega

lemma emod_toNat_lt (v : ℤ) : (v % 2 ^ 32).toNat < 2 ^ 32 := by
  have h1 : (0 : ℤ) ≤ v % 2 ^ 32 := Int.emod_nonneg v (by norm_num)
  have h2 : v % 2 ^ 32 < 2 ^ 32 := Int.emod_lt_of_pos v (by norm_num)
  omega

lemma emod_toNat_cast (v : ℤ) : ((v % 2 ^ 32).toNat : ℤ) = v % 2 ^ 32 := by
  have h1 : (0 : ℤ) ≤ v % 2 ^ 32 := Int.emod_nonneg v (by norm_num)
  omega

lemma intercalate_cons (s x : List Char) (xs : List (List Char)) :
    List.intercalate s (x :: xs) =
      x ++ if xs = [] then [] else s ++ List.intercalate s xs := by
  cases xs <;> simp [List.intercalate, List.intersperse]

lemma splitOnChar_ne_nil (c : Char) (l : List Char) : splitOnChar c l ≠ [] := by
  induction l with
  | nil => simp [splitOnChar]
  | cons x xs ih =>
    simp only [splitOnChar]
    by_cases hxc : (x == c) = true
    · simp [hxc]
    · simp only [hxc, Bool.false_eq_true, if_false]
      cases hr : splitOnChar c xs <;> simp

lemma splitOnChar_not_mem {c : Char} {l : List Char} (h : c ∉ l) : splitOnChar c l = [l] := by
  induction l with
  | nil => rfl
  | cons x xs ih =>
    have hx : ¬ (x == c) = true := by
      simp only [beq_iff_eq]
      rintro rfl
      exact h (List.mem_cons_self x xs)
    have hxs : c ∉ xs := fun hm => h (List.mem_cons_of_mem _ hm)
    simp only [splitOnChar, hx, Bool.false_eq_true, if_false, ih hxs]

lemma splitOnChar_append {c : Char} {a : List Char} (b : List Char) (h : c ∉ a) :
    splitOnChar c (a ++ c :: b) = a :: splitOnChar c b := by
  induction a with
  | nil => simp [splitOnChar]
  | cons x xs ih =>
    have hx : ¬ (x == c) = true := by
      simp only [beq_iff_eq]
      rintro rfl
      exact h (List.mem_cons_self x xs)
    have hxs : c ∉ xs := fun hm => h (List.mem_cons_of_mem _ hm)
    simp only [List.cons_append, splitOnChar, List.append_eq, hx, Bool.false_eq_true, if_false]
    rw [ih hxs]

lemma splitOnChar_intercalate {c : Char} :
    ∀ parts : List (List Char), parts ≠ [] → (∀ p ∈ parts, c ∉ p) →
      splitOnChar c (List.intercalate [c] parts) = parts := by
  intro parts
  induction parts with
  | nil => intro h; exact absurd rfl h
  | cons p ps ih =>
    intro _ hmem
    by_cases hnil : ps = []
    · subst hnil
      rw [intercalate_cons, if_pos rfl, List.append_nil]
      exact splitOnChar_not_mem (hmem p (List.mem_cons_self p []))
    · rw [intercalate_cons, if_neg hnil, List.singleton_append,
        splitOnChar_append _ (hmem p (List.mem_cons_self p ps)),
        ih hnil (fun q hq => hmem q (List.mem_cons_of_mem _ hq))]

lemma mem_intercalate_single {c x : Char} :
    ∀ {parts : List (List Char)}, x ∈ List.intercalate [c] parts →
      x = c ∨ ∃ p ∈ parts, x ∈ p := by
  intro parts
  induction parts with
  | nil => simp [List.intercalate]
  | cons p ps ih =>
    rw [intercalate_cons]
    intro hx
    rcases List.mem_append.mp hx with hp | hrest
    · exact Or.inr ⟨p, List.mem_cons_self p ps, hp⟩
    · by_cases hnil : ps = []
      · rw [if_pos hnil] at hrest
        simp at hrest
      · rw [if_neg hnil] at hrest
        rcases List.mem_append.mp hrest with hc | hint
        · left
          simpa using hc
        · rcases ih hint with h | ⟨q, hq, hxq⟩
          · exact Or.inl h
          · exact Or.inr ⟨q, List.mem_cons_of_mem _ hq, hxq⟩

lemma dropWhile_eq_self_of_all {p : Char → Bool} {l : List Char}
    (h : ∀ x ∈ l, p x = false) : l.dropWhile p = l := by
  cases l with
  | nil => rfl
  | cons x xs => simp [List.dropWhile_cons, h x (List.mem_cons_self x xs)]

lemma stripChars_eq_self {l : List Char} (h : ∀ x ∈ l, pyIsSpace x = false) :
    stripChars l = l := by
  unfold stripChars
  rw [dropWhile_eq_self_of_all h,
    dropWhile_eq_self_of_all (fun x hx => h x (List.mem_reverse.mp hx)),
    List.reverse_reverse]

lemma digitChar_mem_digits {d : ℕ} (h : d < 10) :
    Nat.digitChar d ∈ ['0', '1', '2', '3', '4', '5', '6', '7', '8', '9'] := by
  interval_cases d <;> decide

lemma digitChar_toNat {d : ℕ} (h : d < 10) : (Nat.digitChar d).toNat = 48 + d := by
  interval_cases d <;> decide

lemma digit_char_facts {ch : Char}
    (h : ch ∈ ['0', '1', '2', '3', '4', '5', '6', '7', '8', '9']) :
    ch.isDigit = true ∧ pyIsSpace ch = false ∧ ch ≠ ',' ∧ ch ≠ '\n' ∧ ch ≠ ' ' ∧
      ch ≠ 'r' ∧ ch ≠ '-' ∧ ch ≠ '+' := by
  fin_cases h <;> decide

lemma natChars_mem_digits (n : ℕ) :
    ∀ ch ∈ natChars n, ch ∈ ['0', '1', '2', '3', '4', '5', '6', '7', '8', '9'] := by
  induction n using Nat.strong_induction_on with
  | _ n ih =>
    intro ch hch
    rw [natChars] at hch
    by_cases h10 : n < 10
    · rw [if_pos h10] at hch
      rcases List.mem_singleton.mp hch with rfl
      exact digitChar_mem_digits h10
    · rw [if_neg h10] at hch
      rcases List.mem_append.mp hch with hl | hr
      · exact ih (n / 10) (by omega) ch hl
      · rcases List.mem_singleton.mp hr with rfl
        exact digitChar_mem_digits (by omega)

lemma natChars_ne_nil (n : ℕ) : natChars n ≠ [] := by
  rw [natChars]
  by_cases h10 : n < 10
  · simp [h10]
  · simp [h10]

lemma digitsToNat_append_singleton (a : List Char) (c : Char) :
    digitsToNat (a ++ [c]) = 10 * digitsToNat a + (c.toNat - 48) := by
  simp [digitsToNat, List.foldl_append]

lemma digitsToNat_natChars (n : ℕ) : digitsToNat (natChars n) = n := by
  induction n using Nat.strong_induction_on with
  | _ n ih =>
    rw [natChars]
    by_cases h10 : n < 10
    · rw [if_pos h10]
      simp [digitsToNat, digitChar_toNat h10]
    · rw [if_neg h10, digitsToNat_append_singleton, ih (n / 10) (by omega),
        digitChar_toNat (show n % 10 < 10 by omega)]
      omega

lemma splitFirst_append {c : Char} {a : List Char} (b : List Char) (h : c ∉ a) :
    splitFirst c (a ++ c :: b) = some (a, b) := by
  induction a with
  | nil => simp [splitFirst]
  | cons x xs ih =>
    have hx : ¬ (x == c) = true := by
      simp only [beq_iff_eq]
      rintro rfl
      exact h (List.mem_cons_self x xs)
    have hxs : c ∉ xs := fun hm => h (List.mem_cons_of_mem _ hm)
    simp only [List.cons_append, splitFirst, List.append_eq, hx, Bool.false_eq_true, if_false]
    rw [ih hxs]

lemma splitFirst_some_iff {c : Char} {l a b : List Char} :
    splitFirst c l = some (a, b) ↔ l = a ++ c :: b ∧ c ∉ a := by
  constructor
  · intro h
    induction l generalizing a b with
    | nil => simp [splitFirst] at h
    | cons x xs ih =>
      rw [splitFirst] at h
      by_cases hx : (x == c) = true
      · rw [if_pos hx] at h
        obtain ⟨rfl, rfl⟩ : [] = a ∧ xs = b := by
          injection h with h'
          injection h' with h1 h2
          exact ⟨h1, h2⟩
        have : x = c := by simpa [beq_iff_eq] using hx
        subst this
        exact ⟨rfl, by simp⟩
      · rw [if_neg hx] at h
        cases hsf : splitFirst c xs with
        | none => rw [hsf] at h; cases h
        | some q =>
          obtain ⟨a', b'⟩ := q
          rw [hsf] at h
          obtain ⟨rfl, rfl⟩ : x :: a' = a ∧ b' = b := by
            injection h with h'
            injection h' with h1 h2
            exact ⟨h1, h2⟩
          obtain ⟨hxs, hna⟩ := ih hsf
          subst hxs
          refine ⟨by simp, ?_⟩
          intro hc
          rcases List.mem_cons.mp hc with rfl | hc'
          · exact hx (by simp)
          · exact hna hc'
  · rintro ⟨rfl, h⟩
    exact splitFirst_append b h

lemma parseLine_ok_iff {l lab : List Char} {k : ℤ} :
    parseLine l = Except.ok (lab, k) ↔
      ∃ cnt, l = lab ++ ',' :: cnt ∧ ',' ∉ lab ∧ parseInt cnt = some k := by
  cases hsf : splitFirst ',' l with
  | none =>
    simp only [parseLine, hsf, reduceCtorEq, false_iff]
    rintro ⟨cnt, rfl, hnc, _⟩
    rw [splitFirst_append cnt hnc] at hsf
    cases hsf
  | some q =>
    obtain ⟨lab', cnt'⟩ := q
    obtain ⟨hl, hnc⟩ := splitFirst_some_iff.mp hsf
    subst hl
    cases hpi : parseInt cnt' with
    | none =>
      simp only [parseLine, hsf, hpi, reduceCtorEq, false_iff]
      rintro ⟨cnt, heq, hnc2, hpi2⟩
      have h2 : splitFirst ',' (lab' ++ ',' :: cnt') = some (lab, cnt) :=
        splitFirst_some_iff.mpr ⟨heq, hnc2⟩
      rw [splitFirst_append cnt' hnc] at h2
      obtain ⟨h3, h4⟩ : lab = lab' ∧ cnt = cnt' := by
        injection h2 with h'
        injection h' with ha hb
        exact ⟨ha.symm, hb.symm⟩
      subst h3
      subst h4
      rw [hpi] at hpi2
      cases hpi2
    | some k' =>
      simp only [parseLine, hsf, hpi, Except.ok.injEq, Prod.mk.injEq]
      constructor
      · rintro ⟨rfl, rfl⟩
        exact ⟨cnt', rfl, hnc, hpi⟩
      · rintro ⟨cnt, heq, hnc2, hpi2⟩
        have h2 : splitFirst ',' (lab' ++ ',' :: cnt') = some (lab, cnt) :=
          splitFirst_some_iff.mpr ⟨heq, hnc2⟩
        rw [splitFirst_append cnt' hnc] at h2
        obtain ⟨h3, h4⟩ : lab = lab' ∧ cnt = cnt' := by
          injection h2 with h'
          injection h' with ha hb
          exact ⟨ha.symm, hb.symm⟩
        subst h3
        subst h4
        rw [hpi] at hpi2
        injection hpi2 with h5
        exact ⟨rfl, h5⟩

lemma parseLoop_ok_iff {ls : List (List Char)} {ps : List (List Char × ℤ)} :
    parseLoop ls = Except.ok ps ↔
      List.Forall₂ (fun l p => parseLine l = Except.ok p)
        (ls.filter (fun l => !startsWithChars rhoHeaderChars l)) ps := by
  induction ls generalizing ps with
  | nil =>
    simp only [parseLoop, List.filter_nil]
    constructor
    · intro h
      obtain rfl : ([] : List (List Char × ℤ)) = ps := by injection h
      exact List.Forall₂.nil
    · intro h
      cases h
      rfl
  | cons l ls ih =>
    by_cases hr : startsWithChars rhoHeaderChars l = true
    · rw [parseLoop, if_pos hr, List.filter_cons_of_neg (by simp [hr])]
      exact ih
    · rw [parseLoop, if_neg hr, List.filter_cons_of_pos (by simp [hr])]
      cases hpl : parseLine l with
      | error e =>
        constructor
        · intro h
          cases h
        · intro h
          cases h with
          | cons hp _ => rw [hpl] at hp; cases hp
      | ok p =>
        cases hrec : parseLoop ls with
        | error e =>
          constructor
          · intro h
            cases h
          · intro h
            cases h with
            | cons hp htail =>
              have := ih.mpr htail
              rw [hrec] at this
              cases this
        | ok ps' =>
          constructor
          · intro h
            obtain rfl : p :: ps' = ps := by injection h
            exact List.Forall₂.cons hpl (ih.mp hrec)
          · intro h
            cases h with
            | cons hp htail =>
              have h1 := ih.mpr htail
              rw [hrec] at h1
              obtain rfl : ps' = _ := by injection h1
              rw [hpl] at hp
              obtain rfl : p = _ := by injection hp
              rfl

lemma exists_forall₂_iff {α β : Type} {R : α → β → Prop} :
    ∀ {l : List α}, (∃ l', List.Forall₂ R l l') ↔ ∀ a ∈ l, ∃ b, R a b := by
  intro l
  induction l with
  | nil => exact ⟨fun _ => by simp, fun _ => ⟨[], List.Forall₂.nil⟩⟩
  | cons x xs ih =>
    constructor
    · rintro ⟨l', hl'⟩ a ha
      cases hl' with
      | cons hx htail =>
        rcases List.mem_cons.mp ha with rfl | ha'
        · exact ⟨_, hx⟩
        · exact ih.mp ⟨_, htail⟩ a ha'
    · intro h
      obtain ⟨b, hb⟩ := h x (List.mem_cons_self x xs)
      obtain ⟨l', hl'⟩ := ih.mpr (fun a ha => h a (List.mem_cons_of_mem _ ha))
      exact ⟨b :: l', List.Forall₂.cons hb hl'⟩

lemma collect_aux (dist : List (List Char × ℤ)) :
    ∀ acc : List (ℕ × ℤ) × Option ℤ,
      dist.foldl
        (fun acc p =>
          if pyIsdigitStr p.1 then (acc.1 ++ [(digitsToNat p.1, p.2)], acc.2)
          else if p.1 == undefinedChars then (acc.1, some p.2)
          else acc)
        acc =
      (acc.1 ++ numericOf dist, (undefOf dist).or acc.2) := by
  induction dist with
  | nil => intro acc; simp [numericOf, undefOf]
  | cons p ps ih =>
    intro acc
    rw [List.foldl_cons]
    by_cases hd : pyIsdigitStr p.1 = true
    · rw [if_pos hd, ih]
      have h1 : numericOf (p :: ps) = (digitsToNat p.1, p.2) :: numericOf ps := by
        simp [numericOf, List.filter_cons, hd]
      have h2 : undefOf (p :: ps) = (undefOf ps).or none := by
        simp [undefOf, hd]
      rw [h1, h2, Option.or_none]
      simp
    · rw [if_neg hd]
      have h1 : numericOf (p :: ps) = numericOf ps := by
        simp [numericOf, List.filter_cons, hd]
      by_cases hu : (p.1 == undefinedChars) = true
      · rw [if_pos hu, ih]
        have h2 : undefOf (p :: ps) = (undefOf ps).or (some p.2) := by
          simp only [undefOf]
          rw [if_pos (by simp [hd, hu])]
        rw [h1, h2, Option.or_assoc]
        rfl
      · rw [if_neg hu, ih]
        have h2 : undefOf (p :: ps) = (undefOf ps).or none := by
          simp only [undefOf]
          rw [if_neg (by simp [hu])]
        rw [h1, h2, Option.or_none]

lemma collectEntries_eq (dist : List (List Char × ℤ)) :
    collectEntries dist = (numericOf dist, undefOf dist) := by
  unfold collectEntries
  rw [collect_aux dist ([], none), Option.or_none]
  simp

lemma undefOf_isSome {dist : List (List Char × ℤ)}
    (h : ∃ p ∈ dist, p.1 = undefinedChars) : ∃ c, undefOf dist = some c := by
  induction dist with
  | nil => simp at h
  | cons p ps ih =>
    simp only [undefOf]
    obtain ⟨q, hq, hq1⟩ := h
    rcases List.mem_cons.mp hq with rfl | hq'
    · cases hps : undefOf ps with
      | some c => exact ⟨c, rfl⟩
      | none =>
        rw [if_pos]
        · exact ⟨q.2, rfl⟩
        · rw [hq1]
          decide
    · obtain ⟨c, hc⟩ := ih ⟨q, hq', hq1⟩
      rw [hc]
      exact ⟨c, rfl⟩

lemma intercalate_append_nil {c : Char} :
    ∀ {parts : List (List Char)}, parts ≠ [] →
      List.intercalate [c] (parts ++ [[]]) = List.intercalate [c] parts ++ [c] := by
  intro parts
  induction parts with
  | nil => intro h; exact absurd rfl h
  | cons p ps ih =>
    intro _
    by_cases hnil : ps = []
    · subst hnil
      simp [List.intercalate, List.intersperse]
    · rw [List.cons_append, intercalate_cons, intercalate_cons,
        if_neg (by simp : ¬ ps ++ [[]] = []), if_neg hnil, ih hnil]
      simp

lemma undefined_char_facts {ch : Char} (h : ch ∈ undefinedChars) :
    pyIsSpace ch = false ∧ ch ≠ '\n' ∧ ch ≠ ',' := by
  fin_cases h <;> decide

lemma startsWith_rho_false {c0 : Char} (h : c0 ≠ 'r') (rest : List Char) :
    startsWithChars rhoHeaderChars (c0 :: rest) = false := by
  show (('r' == c0) && startsWithChars ['h', 'o'] rest) = false
  rw [beq_eq_false_iff_ne.mpr (Ne.symm h), Bool.false_and]

lemma parseInt_digits {l : List Char} (hne : l ≠ [])
    (hd : ∀ ch ∈ l, ch ∈ ['0', '1', '2', '3', '4', '5', '6', '7', '8', '9']) :
    parseInt l = some ((digitsToNat l : ℕ) : ℤ) := by
  obtain ⟨c, rest, rfl⟩ := List.exists_cons_of_ne_nil hne
  have hfacts := digit_char_facts (hd c (List.mem_cons_self c rest))
  have hsc : stripChars (c :: rest) = c :: rest :=
    stripChars_eq_self (fun x hx => (digit_char_facts (hd x hx)).2.1)
  have hall : (c :: rest).all Char.isDigit = true :=
    List.all_eq_true.mpr (fun x hx => (digit_char_facts (hd x hx)).1)
  have hminus : (c == '-') = false := beq_eq_false_iff_ne.mpr hfacts.2.2.2.2.2.2.1
  have hplus : (c == '+') = false := beq_eq_false_iff_ne.mpr hfacts.2.2.2.2.2.2.2
  unfold parseInt
  rw [hsc]
  simp only [parseIntCore, hminus, hplus, Bool.false_eq_true, if_false, hall, if_true]

lemma parseInt_natChars (k : ℕ) : parseInt (natChars k) = some ((k : ℕ) : ℤ) := by
  rw [parseInt_digits (natChars_ne_nil k) (natChars_mem_digits k), digitsToNat_natChars]

lemma numeric_line_chars {r k : ℕ} {ch : Char}
    (h : ch ∈ natChars r ++ ',' :: natChars k) :
    ch ∈ ['0', '1', '2', '3', '4', '5', '6', '7', '8', '9'] ∨ ch = ',' := by
  rcases List.mem_append.mp h with h1 | h2
  · exact Or.inl (natChars_mem_digits r ch h1)
  · rcases List.mem_cons.mp h2 with rfl | h3
    · exact Or.inr rfl
    · exact Or.inl (natChars_mem_digits k ch h3)

lemma undefined_line_chars {k : ℕ} {ch : Char}
    (h : ch ∈ undefinedChars ++ ',' :: natChars k) :
    ch ∈ undefinedChars ∨ ch ∈ ['0', '1', '2', '3', '4', '5', '6', '7', '8', '9'] ∨
      ch = ',' := by
  rcases List.mem_append.mp h with h1 | h2
  · exact Or.inl h1
  · rcases List.mem_cons.mp h2 with rfl | h3
    · exact Or.inr (Or.inr rfl)
    · exact Or.inr (Or.inl (natChars_mem_digits k ch h3))

lemma rhoDistLines_no_newline {digest : ℕ → ℕ} {b : ℕ} {values : List ℕ} :
    ∀ l ∈ rhoDistLines digest b values, '\n' ∉ l := by
  intro l hl hnl
  simp only [rhoDistLines] at hl
  rcases List.mem_append.mp hl with h1 | h2
  · rcases List.mem_map.mp h1 with ⟨r, _, rfl⟩
    rcases numeric_line_chars hnl with hd | hc
    · exact (digit_char_facts hd).2.2.2.1 rfl
    · exact absurd hc (by decide)
  · by_cases hn : none ∈ rhoLabels digest b values
    · rw [if_pos hn] at h2
      rcases List.mem_singleton.mp h2 with rfl
      rcases undefined_line_chars hnl with hu | hd | hc
      · exact (undefined_char_facts hu).2.1 rfl
      · exact (digit_char_facts hd).2.2.2.1 rfl
      · exact absurd hc (by decide)
    · rw [if_neg hn] at h2
      cases h2

lemma rhoDistLines_no_space {digest : ℕ → ℕ} {b : ℕ} {values : List ℕ} :
    ∀ l ∈ rhoDistLines digest b values, ∀ ch ∈ l, pyIsSpace ch = false := by
  intro l hl ch hch
  simp only [rhoDistLines] at hl
  rcases List.mem_append.mp hl with h1 | h2
  · rcases List.mem_map.mp h1 with ⟨r, _, rfl⟩
    rcases numeric_line_chars hch with hd | rfl
    · exact (digit_char_facts hd).2.1
    · decide
  · by_cases hn : none ∈ rhoLabels digest b values
    · rw [if_pos hn] at h2
      rcases List.mem_singleton.mp h2 with rfl
      rcases undefined_line_chars hch with hu | hd | rfl
      · exact (undefined_char_facts hu).1
      · exact (digit_char_facts hd).2.1
      · decide
    · rw [if_neg hn] at h2
      cases h2

lemma rhoDistLines_ne_nil {digest : ℕ → ℕ} {b : ℕ} {values : List ℕ} :
    ∀ l ∈ rhoDistLines digest b values, l ≠ [] := by
  intro l hl
  simp only [rhoDistLines] at hl
  rcases List.mem_append.mp hl with h1 | h2
  · rcases List.mem_map.mp h1 with ⟨r, _, rfl⟩
    simp [natChars_ne_nil r]
  · by_cases hn : none ∈ rhoLabels digest b values
    · rw [if_pos hn] at h2
      rcases List.mem_singleton.mp h2 with rfl
      simp [undefinedChars]
    · rw [if_neg hn] at h2
      cases h2

lemma rhoDistLines_not_rho {digest : ℕ → ℕ} {b : ℕ} {values : List ℕ} :
    ∀ l ∈ rhoDistLines digest b values,
      startsWithChars rhoHeaderChars l = false := by
  intro l hl
  simp only [rhoDistLines] at hl
  rcases List.mem_append.mp hl with h1 | h2
  · rcases List.mem_map.mp h1 with ⟨r, _, rfl⟩
    obtain ⟨c0, rest, hcr⟩ := List.exists_cons_of_ne_nil (natChars_ne_nil r)
    have hc0 : c0 ∈ natChars r := by rw [hcr]; exact List.mem_cons_self c0 rest
    have := (digit_char_facts (natChars_mem_digits r c0 hc0)).2.2.2.2.2.1
    rw [hcr, List.cons_append]
    exact startsWith_rho_false this _
  · by_cases hn : none ∈ rhoLabels digest b values
    · rw [if_pos hn] at h2
      rcases List.mem_singleton.mp h2 with rfl
      rw [show undefinedChars ++ ',' :: natChars ((rhoLabels digest b values).count none) =
        'u' :: (['n', 'd', 'e', 'f', 'i', 'n', 'e', 'd'] ++
          ',' :: natChars ((rhoLabels digest b values).count none)) from rfl]
      exact startsWith_rho_false (by decide) _
    · rw [if_neg hn] at h2
      cases h2

lemma count_decEq (a : Option ℕ) (l : List (Option ℕ)) :
    l.count a = @List.count (Option ℕ) instBEqOfDecidableEq a l := by
  induction l with
  | nil => rfl
  | cons x xs ih =>
    rw [List.count_cons, @List.count_cons _ instBEqOfDecidableEq, ih]
    congr 1
    have h1 : (@BEq.beq _ instBEqOfDecidableEq x a) = decide (x = a) := rfl
    by_cases h : x = a <;> simp [h1, h]

lemma forall₂_map_same {α β γ : Type} {R : β → γ → Prop} {f : α → β} {g : α → γ}
    {l : List α} (h : ∀ x ∈ l, R (f x) (g x)) :
    List.Forall₂ R (l.map f) (l.map g) := by
  induction l with
  | nil => exact List.Forall₂.nil
  | cons x xs ih =>
    exact List.Forall₂.cons (h x (List.mem_cons_self x xs))
      (ih (fun a ha => h a (List.mem_cons_of_mem _ ha)))

lemma cleanLines_rhoDistOutput (digest : ℕ → ℕ) (b : ℕ) (values : List ℕ) :
    cleanLines (rhoDistOutput digest b values) =
      rhoHeaderChars :: rhoDistLines digest b values := by
  unfold cleanLines rhoDistOutput
  rw [← intercalate_append_nil
      (show rhoHeaderChars :: rhoDistLines digest b values ≠ [] by simp)]
  rw [splitOnChar_intercalate _ (by simp) ?nomem]
  case nomem =>
    intro p hp
    rcases List.mem_append.mp hp with h1 | h2
    · rcases List.mem_cons.mp h1 with rfl | h1'
      · decide
      · exact rhoDistLines_no_newline p h1'
    · rcases List.mem_singleton.mp h2 with rfl
      simp
  have hmapl : (rhoDistLines digest b values).map stripChars =
      rhoDistLines digest b values := by
    rw [List.map_congr_left
      (fun l hl => stripChars_eq_self (rhoDistLines_no_space l hl))]
    exact List.map_id _
  rw [List.map_append, List.map_cons,
    stripChars_eq_self (by decide : ∀ x ∈ rhoHeaderChars, pyIsSpace x = false), hmapl]
  rw [List.filter_append, List.filter_cons_of_pos (by decide)]
  rw [List.filter_eq_self.mpr (fun l hl => by
    have := rhoDistLines_ne_nil l hl
    simp [List.isEmpty_iff, this])]
  have : ([] : List Char) :: [] = [([] : List Char)] := rfl
  simp [stripChars]

lemma parseLoop_rho (digest : ℕ → ℕ) (b : ℕ) (values : List ℕ) :
    parseLoop (rhoHeaderChars :: rhoDistLines digest b values) =
      Except.ok (rhoDistPairs digest b values) := by
  apply parseLoop_ok_iff.mpr
  have hf : (rhoHeaderChars :: rhoDistLines digest b values).filter
      (fun l => !startsWithChars rhoHeaderChars l) = rhoDistLines digest b values := by
    rw [List.filter_cons_of_neg (by decide)]
    exact List.filter_eq_self.mpr (fun l hl => by simp [rhoDistLines_not_rho l hl])
  rw [hf]
  simp only [rhoDistLines, rhoDistPairs]
  apply List.rel_append
  · apply forall₂_map_same
    intro r _
    apply parseLine_ok_iff.mpr
    refine ⟨natChars ((rhoLabels digest b values).count (some r)), rfl, ?_, ?_⟩
    · intro hc
      exact (digit_char_facts (natChars_mem_digits r ',' hc)).2.2.1 rfl
    · exact parseInt_natChars _
  · by_cases hn : none ∈ rhoLabels digest b values
    · rw [if_pos hn, if_pos hn]
      refine List.Forall₂.cons (parseLine_ok_iff.mpr
        ⟨natChars ((rhoLabels digest b values).count none), rfl, ?_, parseInt_natChars _⟩)
        List.Forall₂.nil
      intro hc
      exact (undefined_char_facts hc).2.2 rfl
    · rw [if_neg hn, if_neg hn]
      exact List.Forall₂.nil

lemma rhoDistPairs_sum (digest : ℕ → ℕ) (b : ℕ) (values : List ℕ) :
    ((rhoDistPairs digest b values).map Prod.snd).sum = (values.length : ℤ) := by
  simp only [rhoDistPairs]
  set labels := rhoLabels digest b values with hlab
  set ranks := (labels.filterMap id).dedup.mergeSort Nat.ble with hranks
  have hlen : labels.length = values.length := by
    rw [hlab]
    simp [rhoLabels]
  have hnodup_ranks : ranks.Nodup :=
    (List.mergeSort_perm _ _).symm.nodup (List.nodup_dedup _)
  set optLabels := ranks.map some ++ (if none ∈ labels then [(none : Option ℕ)] else [])
    with hopt
  have hnodup_opt : optLabels.Nodup := by
    apply List.Nodup.append
    · exact (List.nodup_map_iff (Option.some_injective ℕ)).mpr hnodup_ranks
    · by_cases hn : none ∈ labels <;> simp [hn]
    · intro a ha hb
      rcases List.mem_map.mp ha with ⟨r, _, rfl⟩
      by_cases hn : none ∈ labels
      · rw [if_pos hn] at hb
        exact absurd (List.mem_singleton.mp hb) (by simp)
      · rw [if_neg hn] at hb
        cases hb
  have hmem_opt : ∀ a, a ∈ optLabels ↔ a ∈ labels.dedup := by
    intro a
    rw [List.mem_dedup]
    cases a with
    | none =>
      simp only [hopt, List.mem_append]
      constructor
      · rintro (h1 | h2)
        · rcases List.mem_map.mp h1 with ⟨r, _, h⟩
          cases h
        · by_cases hn : none ∈ labels
          · exact hn
          · rw [if_neg hn] at h2
            cases h2
      · intro hn
        right
        rw [if_pos hn]
        exact List.mem_singleton.mpr rfl
    | some r =>
      simp only [hopt, List.mem_append]
      constructor
      · rintro (h1 | h2)
        · rcases List.mem_map.mp h1 with ⟨r', hr', heq⟩
          have hr1 : r' = r := Option.some_injective ℕ heq
          rw [hr1] at hr'
          have h3 : r ∈ (labels.filterMap id).dedup :=
            (List.mergeSort_perm _ _).mem_iff.mp hr'
          rcases List.mem_filterMap.mp (List.mem_dedup.mp h3) with ⟨a, ha, hid⟩
          cases a with
          | none => cases hid
          | some r'' =>
            have hr3 : r'' = r := by injection hid
            rw [hr3] at ha
            exact ha
        · by_cases hn : none ∈ labels
          · rw [if_pos hn] at h2
            exact absurd (List.mem_singleton.mp h2) (by simp)
          · rw [if_neg hn] at h2
            cases h2
      · intro hmem
        left
        have h1 : r ∈ labels.filterMap id := List.mem_filterMap.mpr ⟨some r, hmem, rfl⟩
        have h3 : r ∈ ranks := (List.mergeSort_perm _ _).mem_iff.mpr (List.mem_dedup.mpr h1)
        exact List.mem_map_of_mem some h3
  have hperm : optLabels.Perm labels.dedup :=
    (List.perm_ext_iff_of_nodup hnodup_opt (List.nodup_dedup _)).mpr hmem_opt
  have hsum : (optLabels.map (fun a => labels.count a)).sum = labels.length := by
    rw [List.Perm.sum_eq (hperm.map (fun a => labels.count a))]
    rw [List.map_congr_left (fun a _ => count_decEq a labels)]
    exact List.sum_map_count_dedup_eq_length labels
  have key : (ranks.map (fun r => labels.count (some r))).sum +
      (if none ∈ labels then labels.count none else 0) = values.length := by
    have hexp : optLabels.map (fun a => labels.count a) =
        ranks.map (fun r => labels.count (some r)) ++
        (if none ∈ labels then [labels.count none] else []) := by
      rw [hopt, List.map_append, List.map_map]
      congr 1
      by_cases hn : none ∈ labels <;> simp [hn]
    rw [← hlen, ← hsum, hexp, List.sum_append]
    congr 1
    by_cases hn : none ∈ labels <;> simp [hn]
  rw [List.map_append, List.sum_append, List.map_map]
  have hcomp : (Prod.snd ∘ fun r => (natChars r, ((labels.count (some r) : ℕ) : ℤ))) =
      (Nat.cast : ℕ → ℤ) ∘ (fun r => labels.count (some r)) := rfl
  rw [hcomp, ← List.map_map, ← Nat.cast_list_sum]
  by_cases hn : none ∈ labels
  · rw [if_pos hn] at key ⊢
    have : (([(undefinedChars, ((labels.count none : ℕ) : ℤ))]).map Prod.snd).sum =
        ((labels.count none : ℕ) : ℤ) := by simp
    rw [this]
    exact_mod_cast congrArg (Nat.cast : ℕ → ℤ) key
  · rw [if_neg hn] at key ⊢
    simp only [List.map_nil, List.sum_nil, add_zero] at key ⊢
    exact_mod_cast congrArg (Nat.cast : ℕ → ℤ) key

/-! ## Claim theorems -/

/-- C1: `to_signed_32` (and, being the same code, `int32`) returns a value
congruent to its argument modulo `2^32`, lying in `[-2^31, 2^31 - 1]`;
values in `[0, 2^31)` are returned unchanged and values in `[2^31, 2^32)`
come back as `v - 2^32`. -/
theorem to_signed_32_spec (v : ℤ) :
    to_signed_32 v % 2 ^ 32 = v % 2 ^ 32 ∧
    -2 ^ 31 ≤ to_signed_32 v ∧ to_signed_32 v ≤ 2 ^ 31 - 1 ∧
    (0 ≤ v → v < 2 ^ 31 → to_signed_32 v = v) ∧
    (2 ^ 31 ≤ v → v < 2 ^ 32 → to_signed_32 v = v - 2 ^ 32) := by
  have hlt := emod_toNat_lt v
  have hcast := emod_toNat_cast v
  set w : ℕ := (v % 2 ^ 32).toNat with hw
  have hmod : to_signed_32 v % 2 ^ 32 = v % 2 ^ 32 := by
    unfold to_signed_32
    rw [← hw]
    by_cases hb : w.testBit 31
    · rw [if_pos hb, hcast]
      omega
    · rw [if_neg hb, hcast]
      omega
  refine ⟨hmod, ?_, ?_, ?_, ?_⟩
  · unfold to_signed_32
    rw [← hw]
    by_cases hb : w.testBit 31
    · rw [if_pos hb]
      have := (testBit31_iff hlt).mp hb
      push_cast
      omega
    · rw [if_neg hb]
      omega
  · unfold to_signed_32
    rw [← hw]
    by_cases hb : w.testBit 31
    · rw [if_pos hb]
      push_cast
      omega
    · rw [if_neg hb]
      have : ¬ 2 ^ 31 ≤ w := fun h => hb ((testBit31_iff hlt).mpr h)
      push_cast
      omega
  · intro h0 h31
    have hv : v % 2 ^ 32 = v := Int.emod_eq_of_lt h0 (by omega)
    have hwv : (w : ℤ) = v := by rw [hcast, hv]
    have hwlt : ¬ 2 ^ 31 ≤ w := by omega
    unfold to_signed_32
    rw [← hw, if_neg (fun hb => hwlt ((testBit31_iff hlt).mp hb)), hwv]
  · intro h31 h32
    have hv : v % 2 ^ 32 = v := Int.emod_eq_of_lt (by omega) h32
    have hwv : (w : ℤ) = v := by rw [hcast, hv]
    have hwge : 2 ^ 31 ≤ w := by omega
    unfold to_signed_32
    rw [← hw, if_pos ((testBit31_iff hlt).mpr hwge), hwv]

/-- Witness for C1 at concrete inputs on both sides of the sign bit. -/
theorem to_signed_32_spec_witness :
    to_signed_32 7 = 7 ∧ to_signed_32 (2 ^ 31 + 7) = 2 ^ 31 + 7 - 2 ^ 32 ∧
    to_signed_32 (-5) % 2 ^ 32 = (-5) % 2 ^ 32 :=
  ⟨(to_signed_32_spec 7).2.2.2.1 (by norm_num) (by norm_num),
   (to_signed_32_spec (2 ^ 31 + 7)).2.2.2.2 (by norm_num) (by norm_num),
   (to_signed_32_spec (-5)).1⟩

/-- C2: the two independent sign-wrapping implementations agree on every integer. -/
theorem to_signed_32_eq_int32 (v : ℤ) : to_signed_32 v = int32 v := rfl

/-- C4: `make_input n` consists of a first line holding the decimal rendering
of `n`, a second line holding exactly the `n` space-separated decimal tokens
`1 .. n` in ascending order, and a trailing newline; for `n = 0` the second
line is empty. -/
theorem make_input_spec (n : ℕ) :
    splitOnChar '\n' (make_input n) =
      [natChars n, List.intercalate [' '] ((List.range' 1 n).map natChars), []] ∧
    (n = 0 → List.intercalate [' '] ((List.range' 1 n).map natChars) = []) ∧
    (1 ≤ n →
      splitOnChar ' ' (List.intercalate [' '] ((List.range' 1 n).map natChars)) =
        (List.range' 1 n).map natChars ∧
      ((List.range' 1 n).map natChars).length = n) := by
  have hnl : ∀ k : ℕ, '\n' ∉ natChars k := fun k h =>
    (digit_char_facts (natChars_mem_digits k _ h)).2.2.2.1 rfl
  have hsp : ∀ k : ℕ, ' ' ∉ natChars k := fun k h =>
    (digit_char_facts (natChars_mem_digits k _ h)).2.2.2.2.1 rfl
  have hjoin_nl : '\n' ∉ List.intercalate [' '] ((List.range' 1 n).map natChars) := by
    intro h
    rcases mem_intercalate_single h with h1 | ⟨p, hp, hxp⟩
    · exact absurd h1 (by decide)
    · rcases List.mem_map.mp hp with ⟨k, _, rfl⟩
      exact hnl k hxp
  refine ⟨?_, ?_, ?_⟩
  · show splitOnChar '\n'
        (natChars n ++ '\n' ::
          (List.intercalate [' '] ((List.range' 1 n).map natChars) ++ ['\n'])) = _
    rw [splitOnChar_append _ (hnl n), splitOnChar_append [] hjoin_nl]
    rfl
  · rintro rfl
    simp [List.intercalate]
  · intro h1
    refine ⟨splitOnChar_intercalate _ ?_ ?_, by simp⟩
    · intro heq
      have := congrArg List.length heq
      simp at this
      omega
    · intro p hp
      rcases List.mem_map.mp hp with ⟨k, _, rfl⟩
      exact hsp k

/-- Witness for C4 at `n = 3` (token splitting) and `n = 0` (empty second line). -/
theorem make_input_spec_witness :
    splitOnChar ' ' (List.intercalate [' '] ((List.range' 1 3).map natChars)) =
      (List.range' 1 3).map natChars ∧
    List.intercalate [' '] ((List.range' 1 0).map natChars) = [] :=
  ⟨((make_input_spec 3).2.2 (by decide)).1, (make_input_spec 0).2.1 rfl⟩

/-- C5: `parse_distribution` skips blank lines and lines starting with `rho`,
and on the remaining lines, in input order, returns the pair obtained by
splitting at the first comma with the count field parsed as an integer; it
succeeds exactly when every remaining line has a comma and an
integer-parsable count field (otherwise `ValueError`), and on a header-only
output it returns the empty list. -/
theorem parse_distribution_spec (output : List Char) :
    (∀ ps, parse_distribution output = Except.ok ps →
      List.Forall₂
        (fun l p => ∃ cnt, l = p.1 ++ ',' :: cnt ∧ ',' ∉ p.1 ∧ parseInt cnt = some p.2)
        (dataLines output) ps) ∧
    ((∃ ps, parse_distribution output = Except.ok ps) ↔
      ∀ l ∈ dataLines output,
        ∃ lab cnt k, l = lab ++ ',' :: cnt ∧ ',' ∉ lab ∧ parseInt cnt = some (k : ℤ)) ∧
    (dataLines output = [] → parse_distribution output = Except.ok []) := by
  have hdl : dataLines output =
      (cleanLines output).filter (fun l => !startsWithChars rhoHeaderChars l) := rfl
  have hpd : parse_distribution output = parseLoop (cleanLines output) := rfl
  have main : ∀ ps, parse_distribution output = Except.ok ps →
      List.Forall₂
        (fun l p => ∃ cnt, l = p.1 ++ ',' :: cnt ∧ ',' ∉ p.1 ∧ parseInt cnt = some p.2)
        (dataLines output) ps := by
    intro ps h
    rw [hpd] at h
    rw [hdl]
    refine (parseLoop_ok_iff.mp h).imp ?_
    rintro l ⟨lab, k⟩ hlk
    exact parseLine_ok_iff.mp hlk
  have okiff : (∃ ps, parse_distribution output = Except.ok ps) ↔
      ∀ l ∈ dataLines output,
        ∃ lab cnt k, l = lab ++ ',' :: cnt ∧ ',' ∉ lab ∧ parseInt cnt = some (k : ℤ) := by
    rw [hpd, hdl]
    constructor
    · rintro ⟨ps, hps⟩ l hl
      have h2 := parseLoop_ok_iff.mp hps
      obtain ⟨p, hp⟩ := exists_forall₂_iff.mp ⟨ps, h2⟩ l hl
      obtain ⟨lab, k⟩ := p
      obtain ⟨cnt, h3, h4, h5⟩ := parseLine_ok_iff.mp hp
      exact ⟨lab, cnt, k, h3, h4, h5⟩
    · intro h
      have h2 : ∀ l ∈ (cleanLines output).filter (fun l => !startsWithChars rhoHeaderChars l),
          ∃ p : List Char × ℤ, parseLine l = Except.ok p := by
        intro l hl
        obtain ⟨lab, cnt, k, h3, h4, h5⟩ := h l hl
        exact ⟨(lab, k), parseLine_ok_iff.mpr ⟨cnt, h3, h4, h5⟩⟩
      obtain ⟨ps, hps⟩ := exists_forall₂_iff.mpr h2
      exact ⟨ps, parseLoop_ok_iff.mpr hps⟩
  refine ⟨main, okiff, ?_⟩
  · intro hempty
    obtain ⟨ps, hps⟩ := okiff.mpr (by rw [hempty]; intro l hl; cases hl)
    have := main ps hps
    rw [hempty] at this
    cases this
    exact hps

/-- Witness for C5: a header-only output parses to the empty list. -/
theorem parse_distribution_spec_witness :
    parse_distribution ['r', 'h', 'o', '\n'] = Except.ok [] :=
  (parse_distribution_spec ['r', 'h', 'o', '\n']).2.2 (by decide)

/-- C3: for every digest function, bucket width and input list, the
`rho-dist` output (modelled from the spec: header, one line per distinct
numeric rank ascending, an `undefined` line when some remainder is all
zero) parses via `parse_distribution` into pairs whose counts sum to the
number of input elements. -/
theorem rho_distribution_total (digest : ℕ → ℕ) (b : ℕ) (values : List ℕ) :
    parse_distribution (rhoDistOutput digest b values) =
      Except.ok (rhoDistPairs digest b values) ∧
    ((rhoDistPairs digest b values).map Prod.snd).sum = (values.length : ℤ) := by
  refine ⟨?_, rhoDistPairs_sum digest b values⟩
  show parseLoop (cleanLines (rhoDistOutput digest b values)) = _
  rw [cleanLines_rhoDistOutput]
  exact parseLoop_rho digest b values

/-- C6 counterexample: on the parsed distribution `[("1", 5), ("1", 7)]`
(two lines with the same numeric label, which `parse_distribution` can
produce), the driver's rows carry the numeric labels `[1, 1]`, which are not
strictly ascending, so the claim as stated fails. -/
theorem driverRows_claim_counterexample :
    ¬ (List.Pairwise (· < ·)
        ((driverRows [(['1'], (5 : ℤ)), (['1'], 7)]).filterMap Prod.fst) ∧
       ((∃ p ∈ [(['1'], (5 : ℤ)), (['1'], 7)], p.1 = undefinedChars) →
         (driverRows [(['1'], (5 : ℤ)), (['1'], 7)]).countP (fun r => r.1.isNone) = 1 ∧
         ∃ k, (driverRows [(['1'], (5 : ℤ)), (['1'], 7)]).getLast? = some (none, k))) := by
  rintro ⟨h1, -⟩
  have hce : collectEntries [(['1'], (5 : ℤ)), (['1'], 7)] = ([(1, 5), (1, 7)], none) := by
    decide
  have hrows : driverRows [(['1'], (5 : ℤ)), (['1'], 7)] =
      (([(1, 5), (1, 7)] : List (ℕ × ℤ)).mergeSort (fun a b => Nat.ble a.1 b.1)).map
        (fun q => ((some q.1 : Option ℕ), q.2)) := by
    unfold driverRows
    rw [hce]
    simp
  have hcomp : (Prod.fst ∘ fun q : ℕ × ℤ => ((some q.1 : Option ℕ), q.2)) =
      some ∘ Prod.fst := rfl
  rw [hrows, List.filterMap_map, hcomp, List.filterMap_eq_map] at h1
  have hperm := List.mergeSort_perm ([(1, 5), (1, 7)] : List (ℕ × ℤ))
    (fun a b => Nat.ble a.1 b.1)
  have hlen : ((([(1, 5), (1, 7)] : List (ℕ × ℤ)).mergeSort
      (fun a b => Nat.ble a.1 b.1)).map Prod.fst).length = 2 := by
    rw [List.length_map, hperm.length_eq]
    rfl
  have hmem : ∀ x ∈ (([(1, 5), (1, 7)] : List (ℕ × ℤ)).mergeSort
      (fun a b => Nat.ble a.1 b.1)).map Prod.fst, x = 1 := by
    intro x hx
    rcases List.mem_map.mp hx with ⟨q, hq, rfl⟩
    have hq2 := hperm.mem_iff.mp hq
    fin_cases hq2 <;> rfl
  obtain ⟨x, y, hxy⟩ := List.length_eq_two.mp hlen
  rw [hxy] at h1 hmem
  have hx1 := hmem x (List.mem_cons_self x [y])
  have hy1 := hmem y (by simp)
  cases h1 with
  | cons hhead _ =>
    have := hhead y (List.mem_cons_self y [])
    rw [hx1, hy1] at this
    exact absurd this (by omega)

/-- C6 amended: the driver rows list the numeric labels in nondecreasing
order (strictly ascending as soon as the parsed distribution's numeric
labels are pairwise distinct, as they are in well-formed `rho-dist` output),
and the `undefined` row, when an `undefined` label is present in the parsed
distribution, appears exactly once and as the last row. -/
theorem driverRows_spec (dist : List (List Char × ℤ)) :
    List.Pairwise (· ≤ ·) ((driverRows dist).filterMap Prod.fst) ∧
    (((numericOf dist).map Prod.fst).Nodup →
      List.Pairwise (· < ·) ((driverRows dist).filterMap Prod.fst)) ∧
    ((∃ p ∈ dist, p.1 = undefinedChars) →
      (driverRows dist).countP (fun r => r.1.isNone) = 1 ∧
      ∃ k, (driverRows dist).getLast? = some (none, k)) := by
  have hrows : driverRows dist =
      ((numericOf dist).mergeSort (fun a b => Nat.ble a.1 b.1)).map
        (fun q => ((some q.1 : Option ℕ), q.2)) ++
      (match undefOf dist with
       | some c => [((none : Option ℕ), c)]
       | none => []) := by
    unfold driverRows
    rw [collectEntries_eq]
  have hcomp : (Prod.fst ∘ fun q : ℕ × ℤ => ((some q.1 : Option ℕ), q.2)) =
      some ∘ Prod.fst := rfl
  have hfm : (driverRows dist).filterMap Prod.fst =
      ((numericOf dist).mergeSort (fun a b => Nat.ble a.1 b.1)).map Prod.fst := by
    rw [hrows, List.filterMap_append, List.filterMap_map, hcomp, List.filterMap_eq_map]
    cases undefOf dist <;> simp
  have hsorted : List.Pairwise (fun a b : ℕ × ℤ => a.1 ≤ b.1)
      ((numericOf dist).mergeSort (fun a b => Nat.ble a.1 b.1)) := by
    have htr : ∀ a b c : ℕ × ℤ, Nat.ble a.1 b.1 = true → Nat.ble b.1 c.1 = true →
        Nat.ble a.1 c.1 = true := by
      intro a b c hab hbc
      simp only [Nat.ble_eq] at *
      omega
    have hto : ∀ a b : ℕ × ℤ, (Nat.ble a.1 b.1 || Nat.ble b.1 a.1) = true := by
      intro a b
      simp only [Bool.or_eq_true, Nat.ble_eq]
      omega
    exact (List.sorted_mergeSort htr hto (numericOf dist)).imp
      (fun h => Nat.le_of_ble_eq_true h)
  refine ⟨?_, ?_, ?_⟩
  · rw [hfm]
    exact List.pairwise_map.mpr hsorted
  · intro hnd
    rw [hfm]
    have hperm : (((numericOf dist).mergeSort (fun a b => Nat.ble a.1 b.1)).map
        Prod.fst).Perm ((numericOf dist).map Prod.fst) :=
      (List.mergeSort_perm _ _).map _
    have hnd2 : (((numericOf dist).mergeSort (fun a b => Nat.ble a.1 b.1)).map
        Prod.fst).Nodup := hperm.symm.nodup hnd
    have hle : List.Pairwise (· ≤ ·)
        (((numericOf dist).mergeSort (fun a b => Nat.ble a.1 b.1)).map Prod.fst) :=
      List.pairwise_map.mpr hsorted
    exact (hle.and hnd2).imp (fun h => lt_of_le_of_ne h.1 h.2)
  · intro hex
    obtain ⟨c, hc⟩ := undefOf_isSome hex
    rw [hrows, hc]
    constructor
    · rw [List.countP_append]
      have h0 : (((numericOf dist).mergeSort (fun a b => Nat.ble a.1 b.1)).map
          (fun q => ((some q.1 : Option ℕ), q.2))).countP (fun r => r.1.isNone) = 0 := by
        rw [List.countP_eq_zero]
        intro a ha
        rcases List.mem_map.mp ha with ⟨q, _, rfl⟩
        simp
      rw [h0]
      rfl
    · refine ⟨c, ?_⟩
      rw [List.getLast?_append]
      rfl

/-- Witness for the amended C6 on a concrete parsed distribution with
distinct numeric labels and an `undefined` entry. -/
theorem driverRows_spec_witness :
    List.Pairwise (· < ·)
      ((driverRows [(['3'], (4 : ℤ)), (['1'], 2), (undefinedChars, 9)]).filterMap
        Prod.fst) ∧
    (driverRows [(['3'], (4 : ℤ)), (['1'], 2), (undefinedChars, 9)]).countP
      (fun r => r.1.isNone) = 1 ∧
    ∃ k, (driverRows [(['3'], (4 : ℤ)), (['1'], 2), (undefinedChars, 9)]).getLast? =
      some (none, k) :=
  ⟨(driverRows_spec [(['3'], (4 : ℤ)), (['1'], 2), (undefinedChars, 9)]).2.1 (by decide),
   ((driverRows_spec [(['3'], (4 : ℤ)), (['1'], 2), (undefinedChars, 9)]).2.2
     ⟨(undefinedChars, 9), by simp, rfl⟩).1,
   ((driverRows_spec [(['3'], (4 : ℤ)), (['1'], 2), (undefinedChars, 9)]).2.2
     ⟨(undefinedChars, 9), by simp, rfl⟩).2⟩

/-- C7: for every valid register count `m` (a power of two with
`16 ≤ m ≤ 2^20`), the estimate of an empty sketch (all `m` registers zero,
so `V = m` and the small-range linear-counting branch applies) is `0`. -/
theorem estimate_empty (m : ℕ) (hpow : ∃ k, m = 2 ^ k) (h16 : 16 ≤ m)
    (hup : m ≤ 2 ^ 20) : estimate (List.replicate m 0) = 0 := by
  have hm0 : 0 < m := by omega
  have hmne : (m : ℝ) ≠ 0 := Nat.cast_ne_zero.mpr (by omega)
  have hlen : (List.replicate m 0).length = m := List.length_replicate m 0
  have hcount : (List.replicate m 0).count 0 = m := by simp
  have hsum : ((List.replicate m 0).map (fun r => ((2 : ℝ) ^ r)⁻¹)).sum = m := by
    rw [List.map_replicate]
    simp
  have halpha_le : alphaM m ≤ 2.5 := by
    unfold alphaM
    split_ifs
    · norm_num
    · norm_num
    · norm_num
    · have h5 : (1 : ℝ) ≤ 1 + 1.079 / (m : ℝ) := by
        have : (0 : ℝ) ≤ 1.079 / (m : ℝ) := by positivity
        linarith
      calc 0.7213 / (1 + 1.079 / (m : ℝ)) ≤ 0.7213 := div_le_self (by norm_num) h5
        _ ≤ 2.5 := by norm_num
  have hraw : rawEstimate (List.replicate m 0) = alphaM m * m := by
    unfold rawEstimate
    rw [hlen, hsum]
    field_simp
    ring
  have hcond : rawEstimate (List.replicate m 0) ≤
      2.5 * ((List.replicate m 0).length : ℝ) ∧ (List.replicate m 0).count 0 ≠ 0 := by
    constructor
    · rw [hraw, hlen]
      exact mul_le_mul_of_nonneg_right halpha_le (Nat.cast_nonneg m)
    · rw [hcount]
      omega
  simp only [estimate]
  rw [if_pos hcond, hlen, hcount, div_self hmne, Real.log_one, mul_zero]

/-- Witness for C7 at the smallest valid register count `m = 16`. -/
theorem estimate_empty_witness : estimate (List.replicate 16 0) = 0 :=
  estimate_empty 16 ⟨4, rfl⟩ (by norm_num) (by norm_num)

/-- C8: `input_generator` fails exactly when `n < 0` or `n > 2^32`, and
otherwise returns `n` pairwise-distinct values below `2^32` (the empty list
for `n = 0`), assuming numpy's documented contract for
`rng.choice(pop, size, replace=False)` with `size ≤ pop`. -/
theorem input_generator_spec (choice : ℕ → ℕ → ℕ → List ℕ) (n : ℤ) (seed : ℕ)
    (hlen : ∀ s pop size, size ≤ pop → (choice s pop size).length = size)
    (hnd : ∀ s pop size, size ≤ pop → (choice s pop size).Nodup)
    (hlt : ∀ s pop size, size ≤ pop → ∀ x ∈ choice s pop size, x < pop) :
    ((∃ err, input_generator choice n seed = Except.error err) ↔
      (n < 0 ∨ 2 ^ 32 < n)) ∧
    (∀ vs, input_generator choice n seed = Except.ok vs →
      vs.length = n.toNat ∧ vs.Nodup ∧ ∀ x ∈ vs, x < 2 ^ 32) ∧
    (n = 0 → input_generator choice n seed = Except.ok []) := by
  unfold input_generator
  by_cases h1 : n < 0
  · rw [if_pos h1]
    refine ⟨⟨fun _ => Or.inl h1, fun _ => ⟨_, rfl⟩⟩, ?_, ?_⟩
    · intro vs h
      cases h
    · intro h0
      omega
  · rw [if_neg h1]
    by_cases h2 : n > 2 ^ 32
    · rw [if_pos h2]
      refine ⟨⟨fun _ => Or.inr h2, fun _ => ⟨_, rfl⟩⟩, ?_, ?_⟩
      · intro vs h
        cases h
      · intro h0
        omega
    · rw [if_neg h2]
      by_cases h3 : n = 0
      · rw [if_pos h3]
        refine ⟨⟨fun he => absurd he.choose_spec (by simp), fun hor => by omega⟩, ?_, fun _ => rfl⟩
        intro vs h
        obtain rfl : ([] : List ℕ) = vs := by injection h
        exact ⟨by simp [h3], List.nodup_nil, by simp⟩
      · rw [if_neg h3]
        have hsz : n.toNat ≤ 2 ^ 32 := by omega
        refine ⟨⟨fun he => absurd he.choose_spec (by simp), fun hor => by omega⟩, ?_,
          fun h0 => absurd h0 h3⟩
        intro vs h
        have hmap : (choice seed (2 ^ 32) n.toNat).map (fun x => x % 2 ^ 32) =
            choice seed (2 ^ 32) n.toNat := by
          rw [List.map_congr_left
            (fun x hx => Nat.mod_eq_of_lt (hlt seed (2 ^ 32) n.toNat hsz x hx))]
          exact List.map_id _
        rw [hmap] at h
        obtain rfl : choice seed (2 ^ 32) n.toNat = vs := by injection h
        exact ⟨hlen seed _ _ hsz, hnd seed _ _ hsz, hlt seed _ _ hsz⟩

/-- Witness for C8: with the range oracle (which meets numpy's contract),
a negative `n` fails and `n = 3` returns three distinct in-range values. -/
theorem input_generator_spec_witness :
    (∃ err, input_generator (fun _ _ size => List.range size) (-1) 0 =
      Except.error err) ∧
    (input_generator (fun _ _ size => List.range size) 3 0 = Except.ok [0, 1, 2] →
      ([0, 1, 2] : List ℕ).length = (3 : ℤ).toNat ∧ ([0, 1, 2] : List ℕ).Nodup ∧
      ∀ x ∈ ([0, 1, 2] : List ℕ), x < 2 ^ 32) :=
  ⟨((input_generator_spec (fun _ _ size => List.range size) (-1) 0
      (fun _ _ size _ => List.length_range size)
      (fun _ _ size _ => List.nodup_range size)
      (fun _ _ size hsz x hx => lt_of_lt_of_le (List.mem_range.mp hx) hsz)).1).mpr
      (Or.inl (by norm_num)),
   (input_generator_spec (fun _ _ size => List.range size) 3 0
      (fun _ _ size _ => List.length_range size)
      (fun _ _ size _ => List.nodup_range size)
      (fun _ _ size hsz x hx => lt_of_lt_of_le (List.mem_range.mp hx) hsz)).2.1
      [0, 1, 2]⟩

/-- C9: for `m, n ≥ 1` the one-sigma acceptance band is contained in the
two-sigma band, so every estimate counted by `within_sigma` is counted by
`within_two_sigma`, and the aggregated `Result` fractions satisfy
`within_sigma ≤ within_two_sigma`. -/
theorem within_sigma_le_two_sigma (m n : ℕ) (hm : 1 ≤ m) (hn : 1 ≤ n) :
    (∀ e : ℝ, withinSigma n m e → withinTwoSigma n m e) ∧
    (∀ es : List ℝ, sigmaHits n m es ≤ twoSigmaHits n m es) ∧
    (∀ es : List ℝ, ∀ runs : ℕ, 0 < runs →
      (sigmaHits n m es : ℝ) / (runs : ℝ) ≤ (twoSigmaHits n m es : ℝ) / (runs : ℝ)) := by
  have hs : 0 ≤ sigmaOf m := by
    unfold sigmaOf
    positivity
  have hn0 : (0 : ℝ) ≤ (n : ℝ) := Nat.cast_nonneg n
  have himp : ∀ e : ℝ, withinSigma n m e → withinTwoSigma n m e := by
    rintro e ⟨h1, h2⟩
    constructor
    · calc (n : ℝ) * (1 - 2 * sigmaOf m) ≤ (n : ℝ) * (1 - sigmaOf m) := by nlinarith
        _ ≤ e := h1
    · calc e ≤ (n : ℝ) * (1 + sigmaOf m) := h2
        _ ≤ (n : ℝ) * (1 + 2 * sigmaOf m) := by nlinarith
  have hcount : ∀ es : List ℝ, sigmaHits n m es ≤ twoSigmaHits n m es := by
    intro es
    unfold sigmaHits twoSigmaHits
    apply List.countP_mono_left
    intro e _ he
    simp only [decide_eq_true_eq] at he ⊢
    exact himp e he
  refine ⟨himp, hcount, ?_⟩
  intro es runs hruns
  exact div_le_div_of_nonneg_right (Nat.cast_le.mpr (hcount es)) (Nat.cast_nonneg runs)

/-- Witness for C9 at `m = n = 1`, the estimate `e = 1` and an empty run. -/
theorem within_sigma_le_two_sigma_witness :
    withinTwoSigma 1 1 1 ∧ sigmaHits 1 1 [] ≤ twoSigmaHits 1 1 [] :=
  ⟨(within_sigma_le_two_sigma 1 1 (le_refl 1) (le_refl 1)).1 1
      (by simp only [withinSigma, sigmaOf, Nat.cast_one, Real.sqrt_one]; norm_num),
   (within_sigma_le_two_sigma 1 1 (le_refl 1) (le_refl 1)).2.1 []⟩

/-- C10: whenever the `generate_inputs` retry loop returns `(values, cursor)`,
the sample avoids `0`, it is the generator's output at seed `cursor - 1`,
and the cursor strictly advanced past the starting seed. -/
theorem generate_inputs_spec (gen : ℕ → List ℕ) :
    ∀ (fuel seed cursor : ℕ) (values : List ℕ),
      generate_inputs gen fuel seed = some (values, cursor) →
      0 ∉ values ∧ values = gen (cursor - 1) ∧ seed < cursor := by
  intro fuel
  induction fuel with
  | zero =>
    intro seed cursor values h
    cases h
  | succ fuel ih =>
    intro seed cursor values h
    simp only [generate_inputs] at h
    by_cases h0 : 0 ∈ gen seed
    · rw [if_pos h0] at h
      obtain ⟨ha, hb, hc⟩ := ih (seed + 1) cursor values h
      exact ⟨ha, hb, by omega⟩
    · rw [if_neg h0] at h
      have h' : (gen seed, seed + 1) = (values, cursor) := by injection h
      obtain ⟨h1, h2⟩ : gen seed = values ∧ seed + 1 = cursor :=
        ⟨congrArg Prod.fst h', congrArg Prod.snd h'⟩
      subst h1
      subst h2
      exact ⟨h0, by simp, by omega⟩

/-- Witness for C10: a generator that immediately avoids `0` returns after
one iteration with the cursor advanced by one. -/
theorem generate_inputs_spec_witness :
    0 ∉ [1] ∧ [1] = (fun _ : ℕ => [1]) (6 - 1) ∧ 5 < 6 :=
  generate_inputs_spec (fun _ => [1]) 1 5 6 [1] (by decide)

end HLL
